import Mathlib

/-!
# GramGro storefront: cart store and catalogue filter

A shallow embedding of the state logic of `src/src/App.jsx`:

* `filtered`   (lines 21-28) the visible part of the catalogue,
* `cartCount`, `total` (lines 30-31) the derived cart figures,
* `addToCart`  (lines 33-43), `changeQty` (lines 45-51), `removeItem` (line 53),
  each embedded as the updater function that React's `setCart` receives: a
  function from the previous cart array to the next one.  `changeQty` and
  `removeItem` build new arrays and new line objects.  `addToCart` copies the array
  but writes the new quantity into the line object the previous array still holds:
  `addToCartInPlace` embeds it with the line objects kept in a heap, and
  `addToCart` gives the lines of the array one invocation returns.

JavaScript arrays are Lean lists, `Array.prototype.filter`, `map` and `reduce`
are `List.filter`, `List.map` and `List.foldl`.  Quantities, prices and deltas
are integers (`Int`); identifiers are values of an arbitrary type with
decidable equality (`===` on JSON numbers or strings).  Strings are Lean
strings.
-/

namespace GramGro

/-! ## Data model -/

/-- A record of `products.json`, with the fields the component reads. -/
structure Product (ι : Type) where
  id : ι
  title : String
  price : Int
  category : String
  categoryLabel : String
  image : String
  description : String
deriving DecidableEq, Repr

/-- A cart line: the object literal `{ id, title, price, image, qty }` of line 41. -/
structure CartLine (ι : Type) where
  id : ι
  title : String
  price : Int
  image : String
  qty : Int
deriving DecidableEq, Repr

/-- The `cart` state cell: an array of cart lines. -/
abbrev Cart (ι : Type) := List (CartLine ι)

/-- The initial state `useState([])` of line 12. -/
def initialCart {ι : Type} : Cart ι := []

/-! ## JavaScript built-ins used by the component -/

/-- `Array.prototype.findIndex`, scanning from index `k`: the index of the first
element satisfying `pred`, or `-1` when the scan reaches the end. -/
def findIndexFrom {α : Type} (pred : α → Bool) (k : Nat) : List α → Int
  | [] => -1
  | x :: xs => if pred x then (k : Int) else findIndexFrom pred (k + 1) xs

/-- `Array.prototype.findIndex`. -/
def findIndex {α : Type} (pred : α → Bool) (l : List α) : Int :=
  findIndexFrom pred 0 l

/-- The characters removed by `String.prototype.trim`: ECMAScript WhiteSpace and
LineTerminator code points. -/
def isTrimChar (c : Char) : Bool :=
  let n := c.toNat
  n == 0x09 || n == 0x0A || n == 0x0B || n == 0x0C || n == 0x0D || n == 0x20 ||
  n == 0xA0 || n == 0x1680 || (0x2000 ≤ n && n ≤ 0x200A) || n == 0x2028 ||
  n == 0x2029 || n == 0x202F || n == 0x205F || n == 0x3000 || n == 0xFEFF

/-- `String.prototype.trim`: strip leading and trailing white space. -/
def trim (s : String) : String :=
  String.mk ((s.toList.dropWhile isTrimChar).reverse.dropWhile isTrimChar).reverse

/-- `String.prototype.includes`: `q` occurs in `s` as a contiguous substring. -/
def includes (s q : String) : Bool :=
  decide (q.toList <:+: s.toList)

/-- Truthiness of a JavaScript string: every string but the empty one. -/
def truthy (s : String) : Bool :=
  !(s.toList.isEmpty)

/-- Lower-casing of the ASCII letters, leaving every other character alone: what
`String.prototype.toLowerCase` does on ASCII text. -/
def asciiLowerCase (s : String) : String :=
  String.mk (s.toList.map Char.toLower)

/-! ## The catalogue filter (lines 21-28) -/

/-- The `filtered` memo.  `toLowerCase` is the runtime's
`String.prototype.toLowerCase`, taken as a parameter. -/
def filtered {ι : Type} (toLowerCase : String → String)
    (products : List (Product ι)) (filter search : String) : List (Product ι) :=
  let list := products
  let list := if filter ≠ "all" then list.filter (fun p => p.category == filter) else list
  let list := if truthy (trim search) then
      list.filter (fun p => includes (toLowerCase p.title) (toLowerCase search))
    else list
  list

/-! ## Derived cart figures (lines 30-31) -/

/-- The reduce `cart.reduce((a, c) => a + c.qty, 0)`. -/
def cartCount {ι : Type} (cart : Cart ι) : Int :=
  cart.foldl (fun a c => a + c.qty) 0

/-- The reduce `cart.reduce((a, c) => a + c.price * c.qty, 0)`. -/
def total {ι : Type} (cart : Cart ι) : Int :=
  cart.foldl (fun a c => a + c.price * c.qty) 0

/-! ## Cart operations (lines 33-53) -/

/-- The statement `next[idx].qty += 1`: in a list of lines, the line at position `n`
gets its quantity raised by one and every other position keeps its line.  Used on
the lines of the returned array (position `idx`, which `findIndex` keeps within the
array) and on the heap of line objects (the address `next[idx]` points to). -/
def bumpAt {ι : Type} : Nat → Cart ι → Cart ι
  | _, [] => []
  | 0, i :: rest => { i with qty := i.qty + 1 } :: rest
  | n + 1, i :: rest => i :: bumpAt n rest

/-- The lines of the array that one invocation of the updater of `addToCart(p)`
returns, from the lines of the previous array.  The write into the shared line
object is in `addToCartInPlace`; `addToCartInPlace_read` relates the two. -/
def addToCart {ι : Type} [DecidableEq ι] (p : Product ι) (prev : Cart ι) : Cart ι :=
  let idx := findIndex (fun i => decide (i.id = p.id)) prev
  if idx ≥ 0 then
    bumpAt idx.toNat prev
  else
    prev ++ [{ id := p.id, title := p.title, price := p.price, image := p.image, qty := 1 }]

/-- The updater of `changeQty(id, delta)`. -/
def changeQty {ι : Type} [DecidableEq ι] (id : ι) (delta : Int) (prev : Cart ι) : Cart ι :=
  (prev.map (fun i => if i.id = id then { i with qty := i.qty + delta } else i)).filter
    (fun i => decide (i.qty > 0))

/-- The updater of `removeItem(id)`. -/
def removeItem {ι : Type} [DecidableEq ι] (id : ι) (prev : Cart ι) : Cart ι :=
  prev.filter (fun i => decide (i.id ≠ id))

/-! ## `addToCart` with the line objects it writes to (lines 34-42) -/

/-- The line objects in memory: the object at address `r` is `heap[r]?`. -/
abbrev Heap (ι : Type) := List (CartLine ι)

/-- A cart array as JavaScript holds it: the addresses of its line objects. -/
abbrev CartArray := List Nat

/-- The lines that a cart array shows when its addresses are followed in the heap. -/
def readCart {ι : Type} (heap : Heap ι) (arr : CartArray) : Cart ι :=
  arr.filterMap (fun r => heap[r]?)

/-- The updater of `addToCart(p)` with its effect on memory: the heap after the call
and the array it returns.  `[...prev]` copies the addresses, not the objects, so
`next[idx].qty += 1` writes into the object that `prev` holds as well; the other
branch allocates the new line at the next free address. -/
def addToCartInPlace {ι : Type} [DecidableEq ι] (p : Product ι) (heap : Heap ι)
    (prev : CartArray) : Heap ι × CartArray :=
  let idx := findIndex
    (fun r => match heap[r]? with
      | some i => decide (i.id = p.id)
      | none => false) prev
  if idx ≥ 0 then
    let next := prev
    match next[idx.toNat]? with
    | some r => (bumpAt r heap, next)
    | none => (heap, next)
  else
    (heap ++ [{ id := p.id, title := p.title, price := p.price, image := p.image, qty := 1 }],
      prev ++ [heap.length])

/-- The call `setCart(updater)` with the updater invoked once on the current array. -/
def setCart {ι : Type} (updater : Heap ι → CartArray → Heap ι × CartArray)
    (state : Heap ι × CartArray) : Heap ι × CartArray :=
  updater state.1 state.2

/-- The call `setCart(updater)` as React runs it under `StrictMode` in development:
the updater is invoked twice on the same previous array, the second invocation
seeing the heap as the first one left it, and the second result becomes the state. -/
def setCartStrict {ι : Type} (updater : Heap ι → CartArray → Heap ι × CartArray)
    (state : Heap ι × CartArray) : Heap ι × CartArray :=
  updater (updater state.1 state.2).1 state.2

/-! ## Sequences of user actions -/

/-- A user action on the cart. -/
inductive Action (ι : Type) where
  | add (p : Product ι)
  | change (id : ι) (delta : Int)
  | remove (id : ι)

/-- One `setCart` update. -/
def step {ι : Type} [DecidableEq ι] (cart : Cart ι) : Action ι → Cart ι
  | .add p => addToCart p cart
  | .change id delta => changeQty id delta cart
  | .remove id => removeItem id cart

/-- The cart after a sequence of actions, starting from the empty cart. -/
def run {ι : Type} [DecidableEq ι] (actions : List (Action ι)) : Cart ι :=
  actions.foldl step initialCart

/-! ## Reference definitions, following the specification's wording -/

/-- The lines of a cart whose id differs from `id`, in their original order. -/
def linesOtherThan {ι : Type} [DecidableEq ι] (id : ι) : Cart ι → Cart ι
  | [] => []
  | l :: ls => if l.id = id then linesOtherThan id ls else l :: linesOtherThan id ls

/-- Sum over all lines of price × quantity. -/
def sumPriceTimesQty {ι : Type} : Cart ι → Int
  | [] => 0
  | l :: ls => l.price * l.qty + sumPriceTimesQty ls

/-- Sum over all lines of quantity. -/
def sumQty {ι : Type} : Cart ι → Int
  | [] => 0
  | l :: ls => l.qty + sumQty ls

/-- The catalogue items whose category equals `category`, in their original order. -/
def itemsOfCategory {ι : Type} (category : String) : List (Product ι) → List (Product ι)
  | [] => []
  | p :: ps =>
    if p.category = category then p :: itemsOfCategory category ps
    else itemsOfCategory category ps

/-- The catalogue items whose lower-cased title contains the lower-cased query, in
their original order. -/
def itemsMatching {ι : Type} (toLowerCase : String → String) (query : String) :
    List (Product ι) → List (Product ι)
  | [] => []
  | p :: ps =>
    if (toLowerCase query).toList <:+: (toLowerCase p.title).toList then
      p :: itemsMatching toLowerCase query ps
    else itemsMatching toLowerCase query ps

/-- The ids of the lines of a cart, in order. -/
def ids {ι : Type} (cart : Cart ι) : List ι :=
  cart.map (fun l => l.id)

/-- The line created for product `p` by line 41. -/
def newLine {ι : Type} (p : Product ι) : CartLine ι :=
  { id := p.id, title := p.title, price := p.price, image := p.image, qty := 1 }

/-! ## Sample data -/

def smartphoneX : Product Nat :=
  { id := 1, title := "Smartphone X", price := 49999, category := "electronics",
    categoryLabel := "Electronics", image := "/img/phone.jpg", description := "A phone." }

def deskLamp : Product Nat :=
  { id := 2, title := "Desk Lamp", price := 1299, category := "home",
    categoryLabel := "Home", image := "/img/lamp.jpg", description := "A lamp." }

def kettle : Product Nat :=
  { id := 3, title := "Kettle", price := 899, category := "home",
    categoryLabel := "Home", image := "/img/kettle.jpg", description := "A kettle." }

def sampleCatalog : List (Product Nat) := [smartphoneX, deskLamp]

/-! ## Auxiliary lemmas -/

theorem findIndexFrom_absent {α : Type} (pred : α → Bool) (k : Nat) (l : List α)
    (h : ∀ x ∈ l, pred x = false) : findIndexFrom pred k l = -1 := by
  induction l generalizing k with
  | nil => rfl
  | cons x xs ih =>
    have hx : pred x = false := h x (List.mem_cons_self x xs)
    have hxs : ∀ y ∈ xs, pred y = false := fun y hy => h y (List.mem_cons_of_mem x hy)
    simp [findIndexFrom, hx, ih (k + 1) hxs]

theorem findIndexFrom_first {α : Type} (pred : α → Bool) (k : Nat) (l₁ l₂ : List α) (x : α)
    (h₁ : ∀ y ∈ l₁, pred y = false) (hx : pred x = true) :
    findIndexFrom pred k (l₁ ++ x :: l₂) = ((k + l₁.length : Nat) : Int) := by
  induction l₁ generalizing k with
  | nil => simp [findIndexFrom, hx]
  | cons y ys ih =>
    have hy : pred y = false := h₁ y (List.mem_cons_self y ys)
    have hys : ∀ z ∈ ys, pred z = false := fun z hz => h₁ z (List.mem_cons_of_mem y hz)
    have hstep : findIndexFrom pred k (y :: ys ++ x :: l₂)
        = findIndexFrom pred (k + 1) (ys ++ x :: l₂) := by
      simp [findIndexFrom, hy]
    rw [hstep, ih (k + 1) hys]
    simp only [List.length_cons]
    congr 1
    omega

theorem first_match_split {α : Type} (pred : α → Bool) (l : List α) :
    (∀ x ∈ l, pred x = false) ∨
    ∃ l₁ x l₂, l = l₁ ++ x :: l₂ ∧ (∀ y ∈ l₁, pred y = false) ∧ pred x = true := by
  induction l with
  | nil => left; simp
  | cons a as ih =>
    cases ha : pred a with
    | true => right; exact ⟨[], a, as, rfl, by simp, ha⟩
    | false =>
      rcases ih with h | ⟨l₁, x, l₂, hl, h₁, hx⟩
      · left
        intro y hy
        rcases List.mem_cons.mp hy with rfl | hy
        · exact ha
        · exact h y hy
      · right
        refine ⟨a :: l₁, x, l₂, by simp [hl], ?_, hx⟩
        intro y hy
        rcases List.mem_cons.mp hy with rfl | hy
        · exact ha
        · exact h₁ y hy

theorem bumpAt_length_append {ι : Type} (l₁ l₂ : Cart ι) (x : CartLine ι) :
    bumpAt l₁.length (l₁ ++ x :: l₂) = l₁ ++ { x with qty := x.qty + 1 } :: l₂ := by
  induction l₁ with
  | nil => rfl
  | cons y ys ih => simp [bumpAt, ih]

theorem addToCart_absent {ι : Type} [DecidableEq ι] (p : Product ι) (cart : Cart ι)
    (h : ∀ l ∈ cart, l.id ≠ p.id) : addToCart p cart = cart ++ [newLine p] := by
  have hidx : findIndex (fun i : CartLine ι => decide (i.id = p.id)) cart = -1 :=
    findIndexFrom_absent _ 0 cart (fun l hl => by simpa using h l hl)
  simp [addToCart, hidx, newLine]

theorem addToCart_present {ι : Type} [DecidableEq ι] (p : Product ι) (l₁ l₂ : Cart ι)
    (x : CartLine ι) (h₁ : ∀ l ∈ l₁, l.id ≠ p.id) (hx : x.id = p.id) :
    addToCart p (l₁ ++ x :: l₂) = l₁ ++ { x with qty := x.qty + 1 } :: l₂ := by
  have hidx : findIndex (fun i : CartLine ι => decide (i.id = p.id)) (l₁ ++ x :: l₂)
      = ((0 + l₁.length : Nat) : Int) :=
    findIndexFrom_first _ 0 l₁ l₂ x (fun l hl => by simpa using h₁ l hl) (by simpa using hx)
  simp only [addToCart, hidx, Nat.zero_add]
  rw [if_pos (by omega)]
  simp [bumpAt_length_append]

theorem addToCart_cases {ι : Type} [DecidableEq ι] (p : Product ι) (cart : Cart ι) :
    ((∀ l ∈ cart, l.id ≠ p.id) ∧ addToCart p cart = cart ++ [newLine p]) ∨
    ∃ l₁ x l₂, cart = l₁ ++ x :: l₂ ∧ (∀ l ∈ l₁, l.id ≠ p.id) ∧ x.id = p.id ∧
      addToCart p cart = l₁ ++ { x with qty := x.qty + 1 } :: l₂ := by
  rcases first_match_split (fun i : CartLine ι => decide (i.id = p.id)) cart with
    h | ⟨l₁, x, l₂, hl, h₁, hx⟩
  · have h' : ∀ l ∈ cart, l.id ≠ p.id := fun l hl => by simpa using h l hl
    exact Or.inl ⟨h', addToCart_absent p cart h'⟩
  · have h₁' : ∀ l ∈ l₁, l.id ≠ p.id := fun l hl => by simpa using h₁ l hl
    have hx' : x.id = p.id := by simpa using hx
    exact Or.inr ⟨l₁, x, l₂, hl, h₁', hx', hl ▸ addToCart_present p l₁ l₂ x h₁' hx'⟩

/-! ## Adding to the cart -/

/-- With the updater invoked once per call: for every product `p` and every cart
without a line for `p.id`, adding `p` twice gives the original lines, unchanged and
in order, followed by one line for `p.id` with quantity 2; exactly one line of the
result carries `p.id`. -/
theorem addToCart_twice_single_invocation {ι : Type} [DecidableEq ι] (p : Product ι) (cart : Cart ι)
    (h : ∀ l ∈ cart, l.id ≠ p.id) :
    addToCart p (addToCart p cart)
      = cart ++ [{ id := p.id, title := p.title, price := p.price, image := p.image, qty := 2 }]
    ∧ ((addToCart p (addToCart p cart)).filter (fun l => decide (l.id = p.id))).length = 1 := by
  have hfirst : addToCart p cart = cart ++ [newLine p] := addToCart_absent p cart h
  have hsecond : addToCart p (cart ++ [newLine p])
      = cart ++ [{ newLine p with qty := (newLine p).qty + 1 }] :=
    addToCart_present p cart [] (newLine p) h rfl
  have hres : addToCart p (addToCart p cart)
      = cart ++ [{ id := p.id, title := p.title, price := p.price, image := p.image, qty := 2 }] := by
    rw [hfirst, hsecond]
    rfl
  refine ⟨hres, ?_⟩
  have hnone : cart.filter (fun l => decide (l.id = p.id)) = [] := by
    rw [List.filter_eq_nil_iff]
    intro l hl
    simpa using h l hl
  rw [hres, List.filter_append, hnone]
  simp

/-- With the updater invoked once, the lines of the returned array: when the cart
holds a line for `p.id` (`x` being the first such line, the
only one when ids are unique), `addToCart p` raises the quantity of `x` by one and
keeps everything else: the title, price and image of `x` stay as they were, whatever
`p` now says, no line is appended, and the other lines keep their place.  When no
line has `p.id`, one line is appended at the end, copying the id, title, price and
image of `p`, with quantity 1. -/
theorem addToCart_effect_single_invocation {ι : Type} [DecidableEq ι] (p : Product ι) (cart : Cart ι) :
    (∀ l₁ x l₂, cart = l₁ ++ x :: l₂ → (∀ l ∈ l₁, l.id ≠ p.id) → x.id = p.id →
        addToCart p cart
          = l₁ ++ { id := x.id, title := x.title, price := x.price, image := x.image,
                    qty := x.qty + 1 } :: l₂)
    ∧ ((∃ l ∈ cart, l.id = p.id) →
        (addToCart p cart).length = cart.length ∧
        ∃ l₁ x l₂, cart = l₁ ++ x :: l₂ ∧ (∀ l ∈ l₁, l.id ≠ p.id) ∧ x.id = p.id ∧
          addToCart p cart
            = l₁ ++ { id := x.id, title := x.title, price := x.price, image := x.image,
                      qty := x.qty + 1 } :: l₂)
    ∧ ((∀ l ∈ cart, l.id ≠ p.id) →
        addToCart p cart
          = cart ++ [{ id := p.id, title := p.title, price := p.price, image := p.image,
                       qty := 1 }]) := by
  refine ⟨?_, ?_, ?_⟩
  · intro l₁ x l₂ hcart h₁ hx
    rw [hcart]
    exact addToCart_present p l₁ l₂ x h₁ hx
  · rintro ⟨l, hl, hid⟩
    rcases addToCart_cases p cart with ⟨habs, _⟩ | ⟨l₁, x, l₂, hcart, h₁, hx, hadd⟩
    · exact absurd hid (habs l hl)
    · refine ⟨?_, l₁, x, l₂, hcart, h₁, hx, hadd⟩
      rw [hadd, hcart]
      simp
  · intro habs
    exact addToCart_absent p cart habs

theorem bumpAt_getElem?_ne {ι : Type} (heap : Heap ι) (r q : Nat) (h : q ≠ r) :
    (bumpAt r heap)[q]? = heap[q]? := by
  induction heap generalizing r q with
  | nil => cases r <;> rfl
  | cons o os ih =>
    cases r with
    | zero =>
      cases q with
      | zero => exact absurd rfl h
      | succ q => simp [bumpAt]
    | succ r =>
      cases q with
      | zero => simp [bumpAt]
      | succ q =>
        simp only [bumpAt, List.getElem?_cons_succ]
        exact ih r q (fun hq => h (by rw [hq]))

theorem bumpAt_getElem?_eq {ι : Type} (heap : Heap ι) (r : Nat) (x : CartLine ι)
    (h : heap[r]? = some x) :
    (bumpAt r heap)[r]? = some { x with qty := x.qty + 1 } := by
  induction heap generalizing r with
  | nil => simp at h
  | cons o os ih =>
    cases r with
    | zero =>
      simp only [List.getElem?_cons_zero, Option.some.injEq] at h
      simp [bumpAt, h]
    | succ r =>
      simp only [List.getElem?_cons_succ] at h
      simp only [bumpAt, List.getElem?_cons_succ]
      exact ih r h

theorem readCart_congr {ι : Type} (h₁ h₂ : Heap ι) (arr : CartArray)
    (h : ∀ r ∈ arr, h₁[r]? = h₂[r]?) : readCart h₁ arr = readCart h₂ arr := by
  induction arr with
  | nil => rfl
  | cons r rs ih =>
    have hr := h r (List.mem_cons_self r rs)
    have hrs := ih (fun q hq => h q (List.mem_cons_of_mem r hq))
    simp only [readCart] at hrs ⊢
    simp only [List.filterMap_cons, hr, hrs]

theorem readCart_append {ι : Type} (heap : Heap ι) (a b : CartArray) :
    readCart heap (a ++ b) = readCart heap a ++ readCart heap b := by
  simp [readCart, List.filterMap_append]

theorem mem_readCart {ι : Type} (heap : Heap ι) (arr : CartArray) (l : CartLine ι)
    (h : l ∈ readCart heap arr) : ∃ r ∈ arr, heap[r]? = some l := by
  simpa [readCart, List.mem_filterMap] using h

theorem addToCartInPlace_absent {ι : Type} [DecidableEq ι] (p : Product ι) (heap : Heap ι)
    (prev : CartArray) (h : ∀ l ∈ readCart heap prev, l.id ≠ p.id) :
    addToCartInPlace p heap prev = (heap ++ [newLine p], prev ++ [heap.length]) := by
  have hidx : findIndex
      (fun r => match heap[r]? with
        | some i => decide (i.id = p.id)
        | none => false) prev = -1 := by
    apply findIndexFrom_absent
    intro r hr
    cases hg : heap[r]? with
    | none => rfl
    | some i =>
      have hi : i ∈ readCart heap prev := by
        simp only [readCart, List.mem_filterMap]
        exact ⟨r, hr, hg⟩
      simpa using h i hi
  simp [addToCartInPlace, hidx, newLine]

theorem addToCartInPlace_present {ι : Type} [DecidableEq ι] (p : Product ι) (heap : Heap ι)
    (l₁ l₂ : CartArray) (r : Nat) (x : CartLine ι)
    (h₁ : ∀ l ∈ readCart heap l₁, l.id ≠ p.id) (hr : heap[r]? = some x) (hx : x.id = p.id) :
    addToCartInPlace p heap (l₁ ++ r :: l₂) = (bumpAt r heap, l₁ ++ r :: l₂) := by
  have hidx : findIndex
      (fun r => match heap[r]? with
        | some i => decide (i.id = p.id)
        | none => false) (l₁ ++ r :: l₂) = ((0 + l₁.length : Nat) : Int) := by
    apply findIndexFrom_first
    · intro q hq
      cases hg : heap[q]? with
      | none => rfl
      | some i =>
        have hi : i ∈ readCart heap l₁ := by
          simp only [readCart, List.mem_filterMap]
          exact ⟨q, hq, hg⟩
        simpa using h₁ i hi
    · simp [hr, hx]
  have hget : (l₁ ++ r :: l₂)[((l₁.length : Nat) : Int).toNat]? = some r := by
    rw [Int.toNat_ofNat, List.getElem?_append_right (Nat.le_refl _)]
    simp
  simp only [addToCartInPlace, hidx, Nat.zero_add]
  rw [if_pos (by omega), hget]

/-- One invocation of the updater, read through the heap it leaves, returns the lines
that `addToCart` gives for the lines of the previous array, when the previous array
holds valid, pairwise distinct addresses. -/
theorem addToCartInPlace_read {ι : Type} [DecidableEq ι] (p : Product ι) (heap : Heap ι)
    (prev : CartArray) (hvalid : ∀ r ∈ prev, r < heap.length) (hnodup : prev.Nodup) :
    readCart (addToCartInPlace p heap prev).1 (addToCartInPlace p heap prev).2
      = addToCart p (readCart heap prev) := by
  rcases first_match_split
      (fun r => match heap[r]? with
        | some i => decide (i.id = p.id)
        | none => false) prev
    with h | ⟨l₁, r, l₂, hprev, hl₁, hr⟩
  · have habs : ∀ l ∈ readCart heap prev, l.id ≠ p.id := by
      intro l hl
      rcases mem_readCart heap prev l hl with ⟨q, hq, hg⟩
      have := h q hq
      simp only [hg] at this
      simpa using this
    rw [addToCartInPlace_absent p heap prev habs, addToCart_absent p _ habs, readCart_append]
    congr 1
    · apply readCart_congr
      intro q hq
      exact List.getElem?_append_left (hvalid q hq)
    · simp [readCart]
  · have habs₁ : ∀ l ∈ readCart heap l₁, l.id ≠ p.id := by
      intro l hl
      rcases mem_readCart heap l₁ l hl with ⟨q, hq, hg⟩
      have := hl₁ q hq
      simp only [hg] at this
      simpa using this
    obtain ⟨x, hgx, hx⟩ : ∃ x, heap[r]? = some x ∧ x.id = p.id := by
      cases hg : heap[r]? with
      | none => simp [hg] at hr
      | some x => exact ⟨x, rfl, by simpa [hg] using hr⟩
    rw [hprev] at hnodup
    have hnot₁ : r ∉ l₁ := fun hm =>
      (List.nodup_append.mp hnodup).2.2 hm (List.mem_cons_self r l₂)
    have hnot₂ : r ∉ l₂ := (List.nodup_cons.mp (List.nodup_append.mp hnodup).2.1).1
    have hsplit : l₁ ++ r :: l₂ = l₁ ++ ([r] ++ l₂) := by simp
    have hold : readCart heap (l₁ ++ r :: l₂) = readCart heap l₁ ++ x :: readCart heap l₂ := by
      rw [hsplit, readCart_append, readCart_append]
      simp [readCart, hgx]
    have hnew : readCart (bumpAt r heap) (l₁ ++ r :: l₂)
        = readCart heap l₁ ++ { x with qty := x.qty + 1 } :: readCart heap l₂ := by
      rw [hsplit, readCart_append, readCart_append,
        readCart_congr (bumpAt r heap) heap l₁
          (fun q hq => bumpAt_getElem?_ne heap r q (fun e => hnot₁ (e ▸ hq))),
        readCart_congr (bumpAt r heap) heap l₂
          (fun q hq => bumpAt_getElem?_ne heap r q (fun e => hnot₂ (e ▸ hq)))]
      simp [readCart, bumpAt_getElem?_eq heap r x hgx]
    rw [hprev, addToCartInPlace_present p heap l₁ l₂ r x habs₁ hgx hx, hold,
      addToCart_present p _ _ x habs₁ hx]
    exact hnew

theorem addToCartInPlace_again {ι : Type} [DecidableEq ι] (p : Product ι) (heap : Heap ι)
    (l₁ l₂ : CartArray) (r : Nat) (x : CartLine ι)
    (h₁ : ∀ l ∈ readCart heap l₁, l.id ≠ p.id) (hr : heap[r]? = some x) (hx : x.id = p.id) :
    setCartStrict (addToCartInPlace p) (heap, l₁ ++ r :: l₂)
      = (bumpAt r (bumpAt r heap), l₁ ++ r :: l₂) := by
  have hnot₁ : r ∉ l₁ := by
    intro hm
    have hxm : x ∈ readCart heap l₁ := by
      simp only [readCart, List.mem_filterMap]
      exact ⟨r, hm, hr⟩
    exact h₁ x hxm hx
  have h₁' : ∀ l ∈ readCart (bumpAt r heap) l₁, l.id ≠ p.id := by
    rw [readCart_congr (bumpAt r heap) heap l₁
      (fun q hq => bumpAt_getElem?_ne heap r q (fun e => hnot₁ (e ▸ hq)))]
    exact h₁
  simp only [setCartStrict]
  rw [addToCartInPlace_present p heap l₁ l₂ r x h₁ hr hx]
  exact addToCartInPlace_present p (bumpAt r heap) l₁ l₂ r { x with qty := x.qty + 1 } h₁'
    (bumpAt_getElem?_eq heap r x hr) hx

/-- C1 on the code with its write into the shared line object: when React invokes
the updater twice per call (`StrictMode`), two calls of `addToCart(p)` from the empty
cart leave one line for `p.id` at quantity 3, where the claim says 2; with one
invocation per call the quantity is 2. -/
theorem addToCart_twice_in_place {ι : Type} [DecidableEq ι] (p : Product ι) :
    readCart
        (setCartStrict (addToCartInPlace p) (setCartStrict (addToCartInPlace p) ([], []))).1
        (setCartStrict (addToCartInPlace p) (setCartStrict (addToCartInPlace p) ([], []))).2
      = [{ id := p.id, title := p.title, price := p.price, image := p.image, qty := 3 }]
    ∧ readCart
        (setCart (addToCartInPlace p) (setCart (addToCartInPlace p) ([], []))).1
        (setCart (addToCartInPlace p) (setCart (addToCartInPlace p) ([], []))).2
      = [{ id := p.id, title := p.title, price := p.price, image := p.image, qty := 2 }] := by
  constructor
  · simp [setCartStrict, addToCartInPlace, findIndex, findIndexFrom, bumpAt, readCart]
  · simp [setCart, addToCartInPlace, findIndex, findIndexFrom, bumpAt, readCart]

/-- C9 on the code with its write into the shared line object, for a cart holding
the phone and the lamp at quantity 1 and one call of `addToCart` for the phone: one
invocation returns the phone at quantity 2 and leaves the previous array showing 2
as well, no longer 1; invoked twice on that same previous array (`StrictMode`), the
call leaves the phone at quantity 3, where the claim says the quantity rises by
exactly 1. -/
theorem addToCart_in_place_effect :
    readCart [newLine smartphoneX, newLine deskLamp] [0, 1]
      = [newLine smartphoneX, newLine deskLamp]
    ∧ readCart
        (setCart (addToCartInPlace smartphoneX) ([newLine smartphoneX, newLine deskLamp], [0, 1])).1
        (setCart (addToCartInPlace smartphoneX) ([newLine smartphoneX, newLine deskLamp], [0, 1])).2
      = [{ newLine smartphoneX with qty := 2 }, newLine deskLamp]
    ∧ readCart
        (setCart (addToCartInPlace smartphoneX) ([newLine smartphoneX, newLine deskLamp], [0, 1])).1
        [0, 1]
      = [{ newLine smartphoneX with qty := 2 }, newLine deskLamp]
    ∧ readCart
        (setCartStrict (addToCartInPlace smartphoneX)
          ([newLine smartphoneX, newLine deskLamp], [0, 1])).1
        (setCartStrict (addToCartInPlace smartphoneX)
          ([newLine smartphoneX, newLine deskLamp], [0, 1])).2
      = [{ newLine smartphoneX with qty := 3 }, newLine deskLamp] := by
  decide

/-! ## Removing and changing quantities -/

theorem changeQty_eq_filter_of_absent {ι : Type} [DecidableEq ι] (id : ι) (delta : Int)
    (cart : Cart ι) (h : ∀ l ∈ cart, l.id ≠ id) :
    changeQty id delta cart = cart.filter (fun i => decide (i.qty > 0)) := by
  have hmap : cart.map (fun i => if i.id = id then { i with qty := i.qty + delta } else i)
      = cart := by
    conv_rhs => rw [← List.map_id cart]
    apply List.map_congr_left
    intro l hl
    simp [h l hl]
  simp only [changeQty, hmap]

theorem changeQty_append {ι : Type} [DecidableEq ι] (id : ι) (delta : Int) (a b : Cart ι) :
    changeQty id delta (a ++ b) = changeQty id delta a ++ changeQty id delta b := by
  simp [changeQty]

theorem changeQty_keeps {ι : Type} [DecidableEq ι] (id : ι) (delta : Int) (cart : Cart ι)
    (habs : ∀ l ∈ cart, l.id ≠ id) (hpos : ∀ l ∈ cart, 1 ≤ l.qty) :
    changeQty id delta cart = cart := by
  rw [changeQty_eq_filter_of_absent id delta cart habs, List.filter_eq_self]
  intro l hl
  have := hpos l hl
  simp only [gt_iff_lt, decide_eq_true_eq]
  omega

/-- C4: `removeItem id` returns exactly the lines whose id differs from `id`,
unchanged and in order; the cart is returned as it is when no line has that id, and
no line of the result has that id, whatever its quantity was. -/
theorem removeItem_spec {ι : Type} [DecidableEq ι] (id : ι) (cart : Cart ι) :
    removeItem id cart = linesOtherThan id cart
    ∧ (removeItem id cart).Sublist cart
    ∧ (∀ l, l ∈ removeItem id cart ↔ l ∈ cart ∧ l.id ≠ id)
    ∧ ((∀ l ∈ cart, l.id ≠ id) → removeItem id cart = cart) := by
  refine ⟨?_, ?_, ?_, ?_⟩
  · induction cart with
    | nil => rfl
    | cons l ls ih =>
      by_cases hl : l.id = id
      · have : removeItem id (l :: ls) = removeItem id ls := by simp [removeItem, hl]
        rw [this, ih]
        simp [linesOtherThan, hl]
      · have : removeItem id (l :: ls) = l :: removeItem id ls := by simp [removeItem, hl]
        rw [this, ih]
        simp [linesOtherThan, hl]
  · exact List.filter_sublist cart
  · intro l
    simp [removeItem, List.mem_filter]
  · intro h
    simp only [removeItem]
    rw [List.filter_eq_self]
    intro l hl
    simpa using h l hl

/-- C4 at concrete inputs: an id that is absent from a non-empty cart, and an id
that is present with quantity 5. -/
theorem removeItem_spec_witness :
    removeItem 7 [newLine smartphoneX, newLine deskLamp] = [newLine smartphoneX, newLine deskLamp]
    ∧ removeItem 1 [{ newLine smartphoneX with qty := 5 }, newLine deskLamp] = [newLine deskLamp] :=
  ⟨(removeItem_spec 7 [newLine smartphoneX, newLine deskLamp]).2.2.2 (by decide), by decide⟩

/-- C2: in a cart of the data model (at most one line per id, the other lines at
quantity 1 or more) holding the line `x` for `id`, `changeQty id delta` with
`x.qty + delta ≤ 0` removes `x` and keeps every other line, unchanged and in order;
no line of the result has that id.  So does `changeQty id (-x.qty)`. -/
theorem changeQty_removes {ι : Type} [DecidableEq ι] (id : ι) (delta : Int)
    (l₁ l₂ : Cart ι) (x : CartLine ι) (hx : x.id = id)
    (hnodup : (ids (l₁ ++ x :: l₂)).Nodup)
    (hpos : ∀ l ∈ l₁ ++ l₂, 1 ≤ l.qty)
    (hdelta : x.qty + delta ≤ 0) :
    changeQty id delta (l₁ ++ x :: l₂) = l₁ ++ l₂
    ∧ (∀ l ∈ changeQty id delta (l₁ ++ x :: l₂), l.id ≠ id)
    ∧ changeQty id (-x.qty) (l₁ ++ x :: l₂) = l₁ ++ l₂ := by
  have hids : ids (l₁ ++ x :: l₂) = ids l₁ ++ x.id :: ids l₂ := by simp [ids]
  rw [hids] at hnodup
  have hnot₁ : ∀ l ∈ l₁, l.id ≠ id := by
    intro l hl hid
    have hmem : x.id ∈ ids l₁ := by
      rw [hx, ← hid]
      exact List.mem_map_of_mem _ hl
    have hd := (List.nodup_append.mp hnodup).2.2
    exact hd hmem (List.mem_cons_self _ _)
  have hnot₂ : ∀ l ∈ l₂, l.id ≠ id := by
    intro l hl hid
    have hmem : x.id ∈ ids l₂ := by
      rw [hx, ← hid]
      exact List.mem_map_of_mem _ hl
    have hd := (List.nodup_append.mp hnodup).2.1
    exact (List.nodup_cons.mp hd).1 hmem
  have hpos₁ : ∀ l ∈ l₁, 1 ≤ l.qty := fun l hl => hpos l (by simp [hl])
  have hpos₂ : ∀ l ∈ l₂, 1 ≤ l.qty := fun l hl => hpos l (by simp [hl])
  have hgone : ∀ d : Int, x.qty + d ≤ 0 → changeQty id d [x] = [] := by
    intro d hd
    simp [changeQty, hx]
    omega
  have hall : ∀ d : Int, x.qty + d ≤ 0 → changeQty id d (l₁ ++ x :: l₂) = l₁ ++ l₂ := by
    intro d hd
    have hsplit : l₁ ++ x :: l₂ = l₁ ++ ([x] ++ l₂) := by simp
    rw [hsplit, changeQty_append, changeQty_append, hgone d hd,
      changeQty_keeps id d l₁ hnot₁ hpos₁, changeQty_keeps id d l₂ hnot₂ hpos₂]
    simp
  refine ⟨hall delta hdelta, ?_, hall (-x.qty) (by omega)⟩
  rw [hall delta hdelta]
  intro l hl
  rcases List.mem_append.mp hl with h | h
  · exact hnot₁ l h
  · exact hnot₂ l h

/-- C2 at a concrete input: the phone line, at quantity 3, is taken down by 3. -/
theorem changeQty_removes_witness :
    (ids ([newLine deskLamp] ++ { newLine smartphoneX with qty := 3 } :: [])).Nodup
    ∧ (∀ l ∈ [newLine deskLamp] ++ [], 1 ≤ l.qty)
    ∧ changeQty 1 (-3) ([newLine deskLamp] ++ { newLine smartphoneX with qty := 3 } :: [])
        = [newLine deskLamp] :=
  ⟨by decide, by decide,
    (changeQty_removes 1 (-3) [newLine deskLamp] [] { newLine smartphoneX with qty := 3 } rfl
      (by decide) (by decide) (by decide)).1⟩

/-! ## Invariants of the cart -/

theorem addToCart_qty_pos {ι : Type} [DecidableEq ι] (p : Product ι) (cart : Cart ι)
    (h : ∀ l ∈ cart, 1 ≤ l.qty) : ∀ l ∈ addToCart p cart, 1 ≤ l.qty := by
  rcases addToCart_cases p cart with ⟨_, hadd⟩ | ⟨l₁, x, l₂, hcart, _, _, hadd⟩
  · rw [hadd]
    intro l hl
    rcases List.mem_append.mp hl with hl | hl
    · exact h l hl
    · rw [List.mem_singleton.mp hl]
      simp [newLine]
  · rw [hadd]
    intro l hl
    have hx : 1 ≤ x.qty := h x (by rw [hcart]; simp)
    rcases List.mem_append.mp hl with hl | hl
    · exact h l (by rw [hcart]; simp [hl])
    · rcases List.mem_cons.mp hl with hl | hl
      · rw [hl]
        show 1 ≤ x.qty + 1
        omega
      · exact h l (by rw [hcart]; simp [hl])

theorem changeQty_qty_pos {ι : Type} [DecidableEq ι] (id : ι) (delta : Int) (cart : Cart ι) :
    ∀ l ∈ changeQty id delta cart, 1 ≤ l.qty := by
  intro l hl
  have hq : l.qty > 0 := by simpa using (List.mem_filter.mp hl).2
  omega

theorem removeItem_qty_pos {ι : Type} [DecidableEq ι] (id : ι) (cart : Cart ι)
    (h : ∀ l ∈ cart, 1 ≤ l.qty) : ∀ l ∈ removeItem id cart, 1 ≤ l.qty :=
  fun l hl => h l (List.mem_filter.mp hl).1

theorem addToCart_ids_nodup {ι : Type} [DecidableEq ι] (p : Product ι) (cart : Cart ι)
    (h : (ids cart).Nodup) : (ids (addToCart p cart)).Nodup := by
  rcases addToCart_cases p cart with ⟨habs, hadd⟩ | ⟨l₁, x, l₂, hcart, _, _, hadd⟩
  · rw [hadd]
    have hids : ids (cart ++ [newLine p]) = ids cart ++ [p.id] := by simp [ids, newLine]
    rw [hids]
    refine List.Nodup.append h (List.nodup_singleton _) ?_
    intro a ha hp
    rw [List.mem_singleton.mp hp] at ha
    rcases List.mem_map.mp ha with ⟨l, hl, hid⟩
    exact habs l hl hid
  · have hids : ids (addToCart p cart) = ids cart := by
      rw [hadd, hcart]
      simp [ids]
    rw [hids]
    exact h

theorem changeQty_ids_sublist {ι : Type} [DecidableEq ι] (id : ι) (delta : Int)
    (cart : Cart ι) : (ids (changeQty id delta cart)).Sublist (ids cart) := by
  have hmap : ids (cart.map (fun i => if i.id = id then { i with qty := i.qty + delta } else i))
      = ids cart := by
    simp only [ids, List.map_map]
    apply List.map_congr_left
    intro l _
    by_cases hl : l.id = id <;> simp [hl]
  rw [← hmap]
  exact List.Sublist.map _ (List.filter_sublist _)

theorem changeQty_ids_nodup {ι : Type} [DecidableEq ι] (id : ι) (delta : Int) (cart : Cart ι)
    (h : (ids cart).Nodup) : (ids (changeQty id delta cart)).Nodup :=
  List.Nodup.sublist (changeQty_ids_sublist id delta cart) h

theorem removeItem_ids_nodup {ι : Type} [DecidableEq ι] (id : ι) (cart : Cart ι)
    (h : (ids cart).Nodup) : (ids (removeItem id cart)).Nodup :=
  List.Nodup.sublist (List.Sublist.map _ (List.filter_sublist _)) h

theorem run_snoc {ι : Type} [DecidableEq ι] (actions : List (Action ι)) (a : Action ι) :
    run (actions ++ [a]) = step (run actions) a := by
  simp [run, List.foldl_append]

theorem run_qty_pos {ι : Type} [DecidableEq ι] (actions : List (Action ι)) :
    ∀ l ∈ run actions, 1 ≤ l.qty := by
  induction actions using List.reverseRecOn with
  | nil => simp [run, initialCart]
  | append_singleton as a ih =>
    rw [run_snoc]
    cases a with
    | add p => exact addToCart_qty_pos p (run as) ih
    | change id delta => exact changeQty_qty_pos id delta (run as)
    | remove id => exact removeItem_qty_pos id (run as) ih

/-- C3: for every cart of the component (every line at quantity 1 or more, as in
every cart reached from the empty cart), every id that matches no line of the cart
and every integer delta, `changeQty id delta` is a no-op: it returns the same lines,
with the same quantities, in the same order. -/
theorem changeQty_absent_noop {ι : Type} [DecidableEq ι] (id : ι) (delta : Int) :
    (∀ cart : Cart ι, (∀ l ∈ cart, 1 ≤ l.qty) → (∀ l ∈ cart, l.id ≠ id) →
        changeQty id delta cart = cart)
    ∧ (∀ actions : List (Action ι), (∀ l ∈ run actions, l.id ≠ id) →
        changeQty id delta (run actions) = run actions) :=
  ⟨fun cart hpos habs => changeQty_keeps id delta cart habs hpos,
   fun actions habs => changeQty_keeps id delta (run actions) habs (run_qty_pos actions)⟩

/-- C3 at concrete inputs: an unknown id against a cart of two lines, and against
the cart reached by adding the phone twice and the lamp once. -/
theorem changeQty_absent_noop_witness :
    changeQty 7 (-3) [newLine smartphoneX, newLine deskLamp]
        = [newLine smartphoneX, newLine deskLamp]
    ∧ changeQty 7 (-3)
          (run [Action.add smartphoneX, Action.add smartphoneX, Action.add deskLamp])
        = run [Action.add smartphoneX, Action.add smartphoneX, Action.add deskLamp] :=
  ⟨(changeQty_absent_noop 7 (-3)).1 [newLine smartphoneX, newLine deskLamp]
      (by decide) (by decide),
   (changeQty_absent_noop 7 (-3)).2
      [Action.add smartphoneX, Action.add smartphoneX, Action.add deskLamp] (by decide)⟩

/-- C5: in every cart reached from the empty cart by a finite sequence of
`addToCart`, `changeQty` (integer delta) and `removeItem`, every line has quantity
at least 1; each of the three operations keeps that property. -/
theorem quantity_invariant {ι : Type} [DecidableEq ι] :
    (∀ actions : List (Action ι), ∀ l ∈ run actions, 1 ≤ l.qty)
    ∧ (∀ (cart : Cart ι) (a : Action ι),
        (∀ l ∈ cart, 1 ≤ l.qty) → ∀ l ∈ step cart a, 1 ≤ l.qty) := by
  have hstep : ∀ (cart : Cart ι) (a : Action ι),
      (∀ l ∈ cart, 1 ≤ l.qty) → ∀ l ∈ step cart a, 1 ≤ l.qty := by
    intro cart a h
    cases a with
    | add p => exact addToCart_qty_pos p cart h
    | change id delta => exact changeQty_qty_pos id delta cart
    | remove id => exact removeItem_qty_pos id cart h
  refine ⟨?_, hstep⟩
  intro actions
  induction actions using List.reverseRecOn with
  | nil => simp [run, initialCart]
  | append_singleton as a ih =>
    rw [run_snoc]
    exact hstep (run as) a ih

/-- C5 at a concrete run: add, add, take one off, take one off again. -/
theorem quantity_invariant_witness :
    run [Action.add smartphoneX, Action.add smartphoneX, Action.add deskLamp,
         Action.change 1 (-1), Action.change 2 (-1)]
      = [newLine smartphoneX]
    ∧ ∀ l ∈ run [Action.add smartphoneX, Action.add smartphoneX, Action.add deskLamp,
         Action.change 1 (-1), Action.change 2 (-1)], 1 ≤ l.qty :=
  ⟨by decide, quantity_invariant.1 _⟩

/-- C6: in every cart reached from the empty cart by a finite sequence of
`addToCart`, `changeQty` and `removeItem`, the ids of the lines are pairwise
distinct; each of the three operations keeps that property. -/
theorem uniqueness_invariant {ι : Type} [DecidableEq ι] :
    (∀ actions : List (Action ι), (ids (run actions)).Nodup)
    ∧ (∀ (p : Product ι) (cart : Cart ι), (ids cart).Nodup → (ids (addToCart p cart)).Nodup)
    ∧ (∀ (id : ι) (delta : Int) (cart : Cart ι),
        (ids cart).Nodup → (ids (changeQty id delta cart)).Nodup)
    ∧ (∀ (id : ι) (cart : Cart ι), (ids cart).Nodup → (ids (removeItem id cart)).Nodup) := by
  refine ⟨?_, addToCart_ids_nodup, changeQty_ids_nodup, removeItem_ids_nodup⟩
  intro actions
  induction actions using List.reverseRecOn with
  | nil => simp [run, initialCart, ids]
  | append_singleton as a ih =>
    rw [run_snoc]
    cases a with
    | add p => exact addToCart_ids_nodup p (run as) ih
    | change id delta => exact changeQty_ids_nodup id delta (run as) ih
    | remove id => exact removeItem_ids_nodup id (run as) ih

/-- C6 at a concrete run: the phone is added, removed and added again. -/
theorem uniqueness_invariant_witness :
    ids (run [Action.add smartphoneX, Action.add deskLamp, Action.remove 1,
              Action.add smartphoneX, Action.add smartphoneX]) = [2, 1]
    ∧ (ids (run [Action.add smartphoneX, Action.add deskLamp, Action.remove 1,
              Action.add smartphoneX, Action.add smartphoneX])).Nodup :=
  ⟨by decide, uniqueness_invariant.1 _⟩

/-! ## Derived figures -/

theorem foldl_add_eq {α : Type} (f : α → Int) (l : List α) (a : Int) :
    l.foldl (fun acc c => acc + f c) a = a + (l.map f).sum := by
  induction l generalizing a with
  | nil => simp
  | cons x xs ih =>
    simp only [List.foldl_cons, List.map_cons, List.sum_cons]
    rw [ih]
    omega

theorem sumPriceTimesQty_eq {ι : Type} (cart : Cart ι) :
    sumPriceTimesQty cart = (cart.map (fun c => c.price * c.qty)).sum := by
  induction cart with
  | nil => rfl
  | cons x xs ih => simp [sumPriceTimesQty, ih]

theorem sumQty_eq {ι : Type} (cart : Cart ι) :
    sumQty cart = (cart.map (fun c => c.qty)).sum := by
  induction cart with
  | nil => rfl
  | cons x xs ih => simp [sumQty, ih]

/-- C10: for every cart, hence after any sequence of operations, the reduce `total`
is the sum over the lines of price × quantity and the reduce `cartCount` is the sum
over the lines of quantity; both are 0 for the empty cart. -/
theorem derived_figures {ι : Type} [DecidableEq ι] (cart : Cart ι) :
    total cart = sumPriceTimesQty cart
    ∧ total cart = (cart.map (fun c => c.price * c.qty)).sum
    ∧ cartCount cart = sumQty cart
    ∧ cartCount cart = (cart.map (fun c => c.qty)).sum
    ∧ total (initialCart : Cart ι) = 0
    ∧ cartCount (initialCart : Cart ι) = 0
    ∧ (∀ actions : List (Action ι),
        total (run actions) = sumPriceTimesQty (run actions)
        ∧ cartCount (run actions) = sumQty (run actions)) := by
  have ht : ∀ c : Cart ι, total c = (c.map (fun c => c.price * c.qty)).sum := by
    intro c
    simp [total, foldl_add_eq (fun c : CartLine ι => c.price * c.qty) c 0]
  have hc : ∀ c : Cart ι, cartCount c = (c.map (fun c => c.qty)).sum := by
    intro c
    simp [cartCount, foldl_add_eq (fun c : CartLine ι => c.qty) c 0]
  refine ⟨?_, ht cart, ?_, hc cart, rfl, rfl, ?_⟩
  · rw [ht, sumPriceTimesQty_eq]
  · rw [hc, sumQty_eq]
  · intro actions
    exact ⟨by rw [ht, sumPriceTimesQty_eq], by rw [hc, sumQty_eq]⟩

/-- C10 at a concrete cart: two phones and three lamps. -/
theorem derived_figures_witness :
    total [{ newLine smartphoneX with qty := 2 }, { newLine deskLamp with qty := 3 }]
      = 49999 * 2 + 1299 * 3
    ∧ cartCount [{ newLine smartphoneX with qty := 2 }, { newLine deskLamp with qty := 3 }] = 5
    ∧ total [{ newLine smartphoneX with qty := 2 }, { newLine deskLamp with qty := 3 }]
      = sumPriceTimesQty
          [{ newLine smartphoneX with qty := 2 }, { newLine deskLamp with qty := 3 }] :=
  ⟨by decide, by decide, (derived_figures _).1⟩

/-! ## The catalogue filter -/

theorem dropWhile_nil_of_all {α : Type} (q : α → Bool) (l : List α)
    (h : ∀ a ∈ l.dropWhile q, q a = true) : l.dropWhile q = [] := by
  induction l with
  | nil => rfl
  | cons a as ih =>
    cases ha : q a with
    | true =>
      have hd : (a :: as).dropWhile q = as.dropWhile q := by simp [List.dropWhile, ha]
      rw [hd] at h ⊢
      exact ih h
    | false =>
      have hd : (a :: as).dropWhile q = a :: as := by simp [List.dropWhile, ha]
      rw [hd] at h
      have := h a (List.mem_cons_self a as)
      rw [ha] at this
      exact absurd this (by decide)

theorem truthy_trim_iff (s : String) :
    truthy (trim s) = true ↔ ∃ c ∈ s.toList, isTrimChar c = false := by
  have hnil : truthy (trim s) = false ↔ ∀ c ∈ s.toList, isTrimChar c = true := by
    have h1 : truthy (trim s) = false
        ↔ (s.toList.dropWhile isTrimChar).reverse.dropWhile isTrimChar = [] := by
      simp [truthy, trim, String.toList]
    rw [h1]
    constructor
    · intro h
      have h2 : ∀ a ∈ s.toList.dropWhile isTrimChar, isTrimChar a = true := by
        intro a ha
        exact List.dropWhile_eq_nil_iff.mp h a (List.mem_reverse.mpr ha)
      exact List.dropWhile_eq_nil_iff.mp (dropWhile_nil_of_all isTrimChar s.toList h2)
    · intro h
      have h3 : s.toList.dropWhile isTrimChar = [] := List.dropWhile_eq_nil_iff.mpr h
      rw [h3]
      rfl
  constructor
  · intro h
    by_contra hne
    have hall : ∀ c ∈ s.toList, isTrimChar c = true := by
      intro c hc
      by_contra hcc
      exact hne ⟨c, hc, by simpa using hcc⟩
    have := hnil.mpr hall
    rw [h] at this
    exact absurd this (by decide)
  · rintro ⟨c, hc, hcf⟩
    cases ht : truthy (trim s) with
    | true => rfl
    | false =>
      have := hnil.mp ht c hc
      rw [hcf] at this
      exact absurd this (by decide)

theorem filter_category_eq {ι : Type} (category : String) (catalog : List (Product ι)) :
    catalog.filter (fun p => p.category == category) = itemsOfCategory category catalog := by
  induction catalog with
  | nil => rfl
  | cons p ps ih =>
    by_cases hp : p.category = category
    · rw [List.filter_cons_of_pos (by simpa using hp), ih]
      simp [itemsOfCategory, hp]
    · rw [List.filter_cons_of_neg (by simpa using hp), ih]
      simp [itemsOfCategory, hp]

theorem filter_includes_eq {ι : Type} (lower : String → String) (query : String)
    (catalog : List (Product ι)) :
    catalog.filter (fun p => includes (lower p.title) (lower query))
      = itemsMatching lower query catalog := by
  induction catalog with
  | nil => rfl
  | cons p ps ih =>
    by_cases hp : (lower query).toList <:+: (lower p.title).toList
    · rw [List.filter_cons_of_pos (by simpa [includes] using hp), ih]
      simp only [itemsMatching]
      rw [if_pos hp]
    · rw [List.filter_cons_of_neg (by simpa [includes] using hp), ih]
      simp only [itemsMatching]
      rw [if_neg hp]

theorem trim_empty : truthy (trim "") = false := by decide

/-- C7: for every catalogue, category and query, the filtered list is an
order-preserving subsequence of the catalogue; with category "all" and the empty
query it is the whole catalogue; with another category and the empty query it is
exactly the items of that category, in their original order. -/
theorem filtered_category {ι : Type} (toLowerCase : String → String)
    (catalog : List (Product ι)) (category query : String) :
    (filtered toLowerCase catalog category query).Sublist catalog
    ∧ filtered toLowerCase catalog "all" "" = catalog
    ∧ (category ≠ "all" →
        filtered toLowerCase catalog category "" = itemsOfCategory category catalog
        ∧ (filtered toLowerCase catalog category "").Sublist catalog
        ∧ ∀ p, p ∈ filtered toLowerCase catalog category ""
            ↔ p ∈ catalog ∧ p.category = category) := by
  refine ⟨?_, ?_, ?_⟩
  · unfold filtered
    split_ifs
    · exact (List.filter_sublist _).trans (List.filter_sublist _)
    · exact List.filter_sublist _
    · exact List.filter_sublist _
    · exact List.Sublist.refl _
  · simp [filtered, trim_empty]
  · intro hc
    have heq : filtered toLowerCase catalog category ""
        = catalog.filter (fun p => p.category == category) := by
      simp [filtered, trim_empty, hc]
    refine ⟨by rw [heq, filter_category_eq], by rw [heq]; exact List.filter_sublist _, ?_⟩
    intro p
    rw [heq]
    simp [List.mem_filter]

/-- C7 at a concrete input: the category "electronics" with the empty query. -/
theorem filtered_category_witness :
    filtered asciiLowerCase [deskLamp, smartphoneX, kettle] "electronics" "" = [smartphoneX]
    ∧ filtered asciiLowerCase [deskLamp, smartphoneX, kettle] "home" "" = [deskLamp, kettle]
    ∧ filtered asciiLowerCase [deskLamp, smartphoneX, kettle] "home" ""
        = itemsOfCategory "home" [deskLamp, smartphoneX, kettle] :=
  ⟨by decide, by decide,
    ((filtered_category asciiLowerCase [deskLamp, smartphoneX, kettle] "home" "").2.2
      (by decide)).1⟩

/-- C8, as stated, fails: the query made of one space is not empty, yet it is blank
after `trim`, so the search test is skipped and the kettle is kept although its
lower-cased title does not contain the lower-cased query. -/
theorem filtered_search_counterexample :
    " " ≠ ""
    ∧ includes (asciiLowerCase kettle.title) (asciiLowerCase " ") = false
    ∧ filtered asciiLowerCase [kettle] "all" " " = [kettle] := by
  decide

/-- C8, amended: with category "all" and a query holding at least one character
that is not white space, the filtered list is exactly the items whose lower-cased
title contains the lower-cased query, in order; a query that is empty or all white
space passes every item through; "phone" against "Smartphone X" and "Desk Lamp"
gives "Smartphone X" alone. -/
theorem filtered_search {ι : Type} (toLowerCase : String → String)
    (catalog : List (Product ι)) (query : String) :
    ((∃ c ∈ query.toList, isTrimChar c = false) →
        filtered toLowerCase catalog "all" query = itemsMatching toLowerCase query catalog
        ∧ ∀ p, p ∈ filtered toLowerCase catalog "all" query
            ↔ p ∈ catalog ∧ (toLowerCase query).toList <:+: (toLowerCase p.title).toList)
    ∧ ((∀ c ∈ query.toList, isTrimChar c = true) →
        filtered toLowerCase catalog "all" query = catalog)
    ∧ filtered asciiLowerCase [smartphoneX, deskLamp] "all" "phone" = [smartphoneX] := by
  refine ⟨?_, ?_, by decide⟩
  · intro hq
    have ht : truthy (trim query) = true := (truthy_trim_iff query).mpr hq
    have heq : filtered toLowerCase catalog "all" query
        = catalog.filter (fun p => includes (toLowerCase p.title) (toLowerCase query)) := by
      simp [filtered, ht]
    refine ⟨by rw [heq, filter_includes_eq], ?_⟩
    intro p
    rw [heq]
    simp [List.mem_filter, includes]
  · intro hq
    have ht : truthy (trim query) = false := by
      cases h : truthy (trim query) with
      | false => rfl
      | true =>
        rcases (truthy_trim_iff query).mp h with ⟨c, hc, hcf⟩
        rw [hq c hc] at hcf
        exact absurd hcf (by decide)
    simp [filtered, ht]

/-- C8, amended, at concrete inputs: a mixed-case query, and a blank one. -/
theorem filtered_search_witness :
    filtered asciiLowerCase [smartphoneX, deskLamp, kettle] "all" "PHONE" = [smartphoneX]
    ∧ filtered asciiLowerCase [smartphoneX, deskLamp, kettle] "all" "PHONE"
        = itemsMatching asciiLowerCase "PHONE" [smartphoneX, deskLamp, kettle]
    ∧ filtered asciiLowerCase [smartphoneX, deskLamp, kettle] "all" "  "
        = [smartphoneX, deskLamp, kettle] :=
  ⟨by decide,
   ((filtered_search asciiLowerCase [smartphoneX, deskLamp, kettle] "PHONE").1
      ⟨'P', by decide, by decide⟩).1,
   (filtered_search asciiLowerCase [smartphoneX, deskLamp, kettle] "  ").2.1 (by decide)⟩

end GramGro
